import Mathlib

/-!
Verification of the server-side reactive core and client hydration layer of a
fine-grained reactive UI runtime (packages/solid/src/server and the client
hydration module).  Each JS/TS function the claims refer to is shallowly
embedded as an executable Lean definition; mutable fields become explicit
state records, promises and async iterables become explicit step functions
on those records, and fallible / throwing code returns `Except` or `Option`.
-/

namespace Spec2Proof

/-- Errors thrown by server primitives.  `notReady src` embeds
`NotReadyError(source)` where `src` names the pending promise; `other`
embeds any other thrown error (identified by a numeric code). -/
inductive SrvErr where
  | notReady (src : Nat)
  | other (code : Nat)
deriving DecidableEq, Repr

/-- Outcome of invoking a user callback `fn()`: it returns a value, throws
`NotReadyError(src)`, or throws some other error. -/
inductive CallResult (V : Type) where
  | ok (v : V)
  | notReady (src : Nat)
  | err (code : Nat)
deriving DecidableEq, Repr

/-- Embeds `isPending(fn, fallback?)` from `server/signals.ts`:
`try { fn(); return false; } catch (err) { if (err instanceof NotReadyError
&& arguments.length > 1) return fallback; throw err; }`.
The `fallback` argument is `none` for the single-argument call form
(`arguments.length === 1`) and `some b` for the two-argument form. -/
def isPendingCall {V : Type} (r : CallResult V) (fallback : Option Bool) :
    Except SrvErr Bool :=
  match r with
  | .ok _ => .ok false
  | .notReady src =>
    match fallback with
    | some fb => .ok fb
    | none => .error (.notReady src)
  | .err code => .error (.other code)

/-! ## Server memo (`createMemo` / `processResult`, `server/signals.ts`) -/

/-- The mutable record backing a server memo: `{ owner, value, compute, error,
computed }`.  JS `undefined` for `value` is `none`; the owner and compute
function are kept outside the record (the owner contributes only its id, the
compute function is supplied per update as its observed outcome). -/
structure Comp (V : Type) where
  value : Option V
  error : Option SrvErr
  computed : Bool
deriving DecidableEq, Repr

/-- What a single invocation of the memo's compute function does, as observed
by `update()`: return a plain value, return a `Promise`, return an
async-iterable, or throw. -/
inductive ComputeOutcome (V : Type) where
  | sync (v : V)
  | prom
  | aiter
  | throwNotReady (src : Nat)
  | throwOther (code : Nat)
deriving DecidableEq, Repr

/-- Embeds one run of `update()` in `createMemo` for outcomes that do not
suspend on an async result: clear `comp.error`, run the compute, and either
hand the plain result to `processResult` (which stores it in `comp.value`)
or catch the thrown error, chaining `source.then(update)` exactly when the
error is a `NotReadyError`.  Returns the new record and whether a retry was
chained. -/
def updateStep {V : Type} (comp : Comp V) (r : ComputeOutcome V) :
    Comp V × Bool :=
  match r with
  | .sync v => ({ value := some v, error := none, computed := true }, false)
  | .prom => (comp, false)
  | .aiter => (comp, false)
  | .throwNotReady src =>
    ({ comp with error := some (.notReady src), computed := true }, true)
  | .throwOther code =>
    ({ comp with error := some (.other code), computed := true }, false)

/-- Embeds the memo accessor returned by `createMemo`, after `comp.computed`
holds: `if (comp.error) throw comp.error; return comp.value;`. -/
def memoRead {V : Type} (comp : Comp V) : Except SrvErr (Option V) :=
  match comp.error with
  | some e => .error e
  | none => .ok comp.value

/-! ### Promise results (`processResult`, Promise branch) -/

/-- A memo whose compute returned a `Promise`: the comp record plus the
promise's reserved fields `s` (settled flag) and `v` (settled value). -/
structure PromMemo (V : Type) where
  comp : Comp V
  sFlag : Bool
  vField : Option V
deriving DecidableEq, Repr

/-- Embeds the `result instanceof Promise` branch of `processResult`:
`uninitialized` is `comp.value === undefined`; a `.then` handler is attached
(modelled by `settlePromise`), the promise is serialized, and
`comp.error = new NotReadyError(result)` is set exactly when uninitialized. -/
def processPromise {V : Type} (comp : Comp V) : PromMemo V :=
  { comp :=
      { comp with
        error := if comp.value.isNone then some (.notReady 0) else comp.error }
    sFlag := false
    vField := none }

/-- Embeds the promise's fulfilment handler
`v => { result.s = 1; result.v = comp.value = v; comp.error = undefined; }`. -/
def settlePromise {V : Type} (m : PromMemo V) (v : V) : PromMemo V :=
  { comp := { m.comp with value := some v, error := none }
    sFlag := true
    vField := some v }

/-! ### Async-iterable results in `server`/default mode
(`processResult`, tapped-wrapper branch) -/

/-- A memo whose compute returned an async iterable, processed in
`server`/default mode.  `ys` lists the values the underlying generator will
yield (finite, then done); `consumed` counts `iter.next()` calls already made
on the underlying iterator (the eager `firstNext` is call 0); `servedFirst`
is the tapped wrapper's replay flag; `firstSettled` records whether the
eagerly started first `next()` has resolved. -/
structure IterMemo (V : Type) where
  comp : Comp V
  ys : List V
  consumed : Nat
  servedFirst : Bool
  firstSettled : Bool
deriving DecidableEq, Repr

/-- Embeds the synchronous part of the async-iterable `server`-mode branch of
`processResult`: `iter.next()` is eagerly started (`consumed = 1`),
`servedFirst = false`, and `comp.error = new NotReadyError(firstReady)` is
set exactly when `comp.value` was `undefined`. -/
def processIterServer {V : Type} (comp : Comp V) (ys : List V) : IterMemo V :=
  { comp :=
      { comp with
        error := if comp.value.isNone then some (.notReady 0) else comp.error }
    ys := ys
    consumed := 1
    servedFirst := false
    firstSettled := false }

/-- Embeds the resolution of `firstReady = firstNext.then(r => { if (!r.done)
{ comp.value = r.value; comp.error = undefined; } })`: when the first yield
produces a value it is stored and the `NotReadyError` is cleared. -/
def iterFirstSettle {V : Type} (m : IterMemo V) : IterMemo V :=
  match m.ys.head? with
  | some v =>
    { m with comp := { m.comp with value := some v, error := none }
             firstSettled := true }
  | none => { m with firstSettled := true }

/-- Embeds one `next()` call on the tapped wrapper handed to `serialize`:
the first call replays `firstNext` (`if (!r.done) comp.value = r.value`),
every later call forwards `iter.next()` and likewise runs
`if (!r.done) comp.value = r.value`.  Returns the iterator result
(`none` = done) and the new state. -/
def tapNext {V : Type} (m : IterMemo V) : Option V × IterMemo V :=
  if m.servedFirst then
    match m.ys[m.consumed]? with
    | some v =>
      (some v,
        { m with comp := { m.comp with value := some v }
                 consumed := m.consumed + 1 })
    | none => (none, { m with consumed := m.consumed + 1 })
  else
    match m.ys.head? with
    | some v =>
      (some v, { m with comp := { m.comp with value := some v }
                        servedFirst := true })
    | none => (none, { m with servedFirst := true })

/-! ## Primitive creation with `ssrSource` (`server/signals.ts`) -/

/-- The recognized `ssrSource` option values. -/
inductive SsrSource where
  | server
  | hybrid
  | initial
  | client
deriving DecidableEq, Repr

/-- Effects observable from one `createMemo` call: the resulting comp record,
how many times the compute function ran, which owner ids were handed to
`ctx.serialize`, and whether a `source.then(update)` retry was chained. -/
structure MemoCreated (V : Type) where
  comp : Comp V
  invocations : Nat
  serialized : List String
  retryChained : Bool
deriving DecidableEq, Repr

/-- Embeds `createMemo(compute, value?, options?)`: capture `ctx`, create the
owner (`id`), build `comp`; for `ssrSource` `initial`/`client` only mark
`comp.computed = true` (no `update()`, no serialization); otherwise run
`update()` eagerly unless `options.lazy`.  `outcome` is what the single
compute invocation would do; `hasCtx` is whether `ctx?.serialize` exists. -/
def createMemoS {V : Type} (id : String) (hasCtx : Bool) (src : Option SsrSource)
    (lazyOpt : Bool) (initial : Option V) (outcome : ComputeOutcome V) :
    MemoCreated V :=
  let comp0 : Comp V := { value := initial, error := none, computed := false }
  if src = some .initial ∨ src = some .client then
    { comp := { comp0 with computed := true }
      invocations := 0, serialized := [], retryChained := false }
  else if lazyOpt then
    { comp := comp0, invocations := 0, serialized := [], retryChained := false }
  else
    match outcome with
    | .sync v =>
      { comp := { value := some v, error := none, computed := true }
        invocations := 1, serialized := [], retryChained := false }
    | .prom =>
      { comp := { value := initial
                  error := if initial.isNone then some (.notReady 0) else none
                  computed := true }
        invocations := 1
        serialized := if hasCtx ∧ id ≠ "" then [id] else []
        retryChained := false }
    | .aiter =>
      { comp := { value := initial
                  error := if initial.isNone then some (.notReady 0) else none
                  computed := true }
        invocations := 1
        serialized := if hasCtx ∧ id ≠ "" then [id] else []
        retryChained := false }
    | .throwNotReady s =>
      { comp := { comp0 with error := some (.notReady s), computed := true }
        invocations := 1, serialized := [], retryChained := true }
    | .throwOther c =>
      { comp := { comp0 with error := some (.other c), computed := true }
        invocations := 1, serialized := [], retryChained := false }

/-- Effects observable from the function form of `createSignal`. -/
structure SignalCreated (V : Type) where
  exposedValue : Option V
  invocations : Nat
  serialized : List String
deriving DecidableEq, Repr

/-- Embeds the function form of `createSignal(fn, initialValue?, options?)`:
for `ssrSource` `initial`/`client` it allocates an owner for id parity and
returns a plain signal over `initialValue` without ever calling `fn` and
without serializing; otherwise it delegates to an eager `createMemo` whose
compute invokes `fn` once (a synchronous compute producing `fv`), so the
accessor exposes `fv`. -/
def createSignalFnS {V : Type} (src : Option SsrSource) (initial : Option V)
    (fv : V) : SignalCreated V :=
  if src = some .initial ∨ src = some .client then
    { exposedValue := initial, invocations := 0, serialized := [] }
  else
    { exposedValue := some fv, invocations := 1, serialized := [] }

/-- What running the projection function on the draft would produce:
a synchronous mutation of the draft (`syncVoid`, with the state after the
mutations), a synchronous returned value already merged into the state
(`syncRet`), a `Promise`, or an async iterable. -/
inductive ProjFnRes (T : Type) where
  | syncVoid (mutated : T)
  | syncRet (final : T)
  | prom (mutated : T)
  | aiter (mutated : T)
deriving DecidableEq, Repr

/-- What `createProjection` hands back: the plain store, or the
`createPendingProxy` wrapper over it. -/
inductive ProjExposed (T : Type) where
  | store (t : T)
  | pendingStore (t : T)
deriving DecidableEq, Repr

/-- Effects observable from one `createProjection` call. -/
structure ProjCreated (T : Type) where
  exposed : ProjExposed T
  invocations : Nat
  serialized : List String
deriving DecidableEq, Repr

/-- Embeds `createProjection(fn, initialValue, options?)`: capture `ctx`,
create the owner, make the store from `initialValue`; for `ssrSource`
`initial`/`client` return the state immediately (no `fn` call, no
serialization); otherwise run `fn` on the draft and dispatch on the result
kind, serializing at the owner id for async results when a context is
present, hydration is not suppressed and the id is non-empty. -/
def createProjectionS {T : Type} (id : String) (hasCtx noHydrate : Bool)
    (src : Option SsrSource) (initial : T) (fnRes : ProjFnRes T) :
    ProjCreated T :=
  if src = some .initial ∨ src = some .client then
    { exposed := .store initial, invocations := 0, serialized := [] }
  else
    match fnRes with
    | .syncVoid mutated =>
      { exposed := .store mutated, invocations := 1, serialized := [] }
    | .syncRet final =>
      { exposed := .store final, invocations := 1, serialized := [] }
    | .prom mutated =>
      { exposed := .pendingStore mutated
        invocations := 1
        serialized := if hasCtx ∧ ¬noHydrate ∧ id ≠ "" then [id] else [] }
    | .aiter mutated =>
      { exposed := .pendingStore mutated
        invocations := 1
        serialized := if hasCtx ∧ ¬noHydrate ∧ id ≠ "" then [id] else [] }

/-! ## Client `createErrorBoundary` under hydration
(`hydratedCreateErrorBoundary`, client hydration module) -/

/-- The body `hydratedCreateErrorBoundary` hands to the core error boundary:
either the original `fn` unchanged (`plain`), or the throw-once wrapper
closing over the serialized error (`throwOnce`). -/
inductive EBBody where
  | plain
  | throwOnce (errCode : Nat)
deriving DecidableEq, Repr

/-- Embeds `hydratedCreateErrorBoundary(fn, fallback)`: when not hydrating,
delegate to the core boundary with `fn` unchanged; when hydrating, peek the
next child id, and if the hydration store `has` that id and `load` returns a
defined value, install the throw-once wrapper; otherwise delegate with `fn`
unchanged.  `hasId` is `sharedConfig.has(expectedId)` and `loadVal` the
result of `sharedConfig.load(expectedId)` (`none` = `undefined`). -/
def hydratedCreateEB (hydrating : Bool) (hasId : Bool)
    (loadVal : Option Nat) : EBBody :=
  if ¬hydrating then .plain
  else if hasId then
    match loadVal with
    | some errCode => .throwOnce errCode
    | none => .plain
  else .plain

/-- One evaluation of the boundary body.  The wrapper's mutable `hydrated`
flag is the explicit `Bool` state (`true` initially); `fnRes` is what `fn()`
returns or throws on this evaluation.  Mirrors
`() => { if (hydrated) { hydrated = false; throw err; } return fn(); }`. -/
def ebBodyStep {V : Type} (body : EBBody) (hydrated : Bool)
    (fnRes : Except SrvErr V) : Except SrvErr V × Bool :=
  match body with
  | .plain => (fnRes, hydrated)
  | .throwOnce errCode =>
    if hydrated then (.error (.other errCode), false) else (fnRes, false)

/-- The result of the n-th evaluation (0-based) of the boundary body, with
the wrapper state threaded from its initial `hydrated = true`; `fnResults`
gives `fn()`'s outcome per evaluation. -/
def ebBodyEval {V : Type} (body : EBBody) (fnResults : Nat → Except SrvErr V) :
    Nat → Except SrvErr V × Bool
  | 0 => ebBodyStep body true (fnResults 0)
  | n + 1 => ebBodyStep body (ebBodyEval body fnResults n).2 (fnResults (n + 1))

/-! ## `createPendingProxy` and async projections (`server/signals.ts`) -/

/-- A property key handed to the proxy's `get` trap: a symbol or a plain
(string/number) key, the latter identified by a `Nat`. -/
inductive GetKey where
  | symbol (s : Nat)
  | prop (k : Nat)
deriving DecidableEq, Repr

/-- The pending wrapper produced by `createPendingProxy(state, source)`:
the underlying state (a key-indexed lookup), the `pending` flag, and the
`source` promise the thrown `NotReadyError` carries. -/
structure PendingProxy (V : Type) where
  state : GetKey → Option V
  pending : Bool
  src : Nat

/-- Embeds the proxy's `get` trap: `if (pending && typeof key !== "symbol")
throw new NotReadyError(source); return Reflect.get(obj, key, receiver);`. -/
def pendingGet {V : Type} (p : PendingProxy V) (k : GetKey) :
    Except SrvErr (Option V) :=
  match k with
  | .symbol s => .ok (p.state (.symbol s))
  | .prop key =>
    if p.pending then .error (.notReady p.src) else .ok (p.state (.prop key))

/-- Embeds `markReady` (`() => (pending = false)`), invoked by the first
settlement handlers of the projection's async paths (`promise.then`,
`firstReady`). -/
def markReady {V : Type} (p : PendingProxy V) : PendingProxy V :=
  { p with pending := false }

/-! ## Server `Loading` boundary: buffered serialization
(`server/hydration.ts`) -/

/-- A serialize call `(id, value, deferStream?)`; the value is identified by
a `Nat`. -/
structure SerCall where
  id : String
  val : Nat
  deferStream : Bool
deriving DecidableEq, Repr

/-- Which function `ctx.serialize` currently points at: the real serializer
(`origSerialize`) or the per-attempt buffering closure. -/
inductive SerBinding where
  | real
  | buffered
deriving DecidableEq, Repr

/-- The serialization-relevant context state: the calls that have reached the
real serializer, and the current `ctx.serialize` binding. -/
structure SerCtx where
  committed : List SerCall
  binding : SerBinding
deriving DecidableEq, Repr

/-- Dispatch of one `ctx.serialize(...)` call through the current binding:
the real serializer appends to `committed`; the buffering closure pushes
onto `serializeBuffer` (threaded explicitly). -/
def doSerialize (c : SerCtx) (buf : List SerCall) (call : SerCall) :
    SerCtx × List SerCall :=
  match c.binding with
  | .real => ({ c with committed := c.committed ++ [call] }, buf)
  | .buffered => (c, buf ++ [call])

/-- One rendering attempt of the boundary's children: the `ctx.serialize`
calls the attempt makes, and whether the component body threw (setting
`runPromise`). -/
structure Attempt where
  calls : List SerCall
  suspends : Bool
deriving DecidableEq, Repr

/-- Embeds `runInitially()` of the server `Loading` component: reset
`serializeBuffer = []`, rebind `ctx.serialize` to the buffering closure, run
the attempt (each of its serialize calls dispatching through the current
binding), then restore `ctx.serialize = origSerialize`.  Returns the context,
the attempt's buffer, and whether it suspended. -/
def runInitiallyS (c : SerCtx) (a : Attempt) : SerCtx × List SerCall × Bool :=
  let c1 : SerCtx := { c with binding := .buffered }
  let step := a.calls.foldl (fun (p : SerCtx × List SerCall) call =>
    doSerialize p.1 p.2 call) (c1, ([] : List SerCall))
  ({ step.1 with binding := .real }, step.2, a.suspends)

/-- Embeds the flush loop
`for (const args of serializeBuffer) origSerialize(...)`. -/
def flushBuffer (c : SerCtx) (buf : List SerCall) : SerCtx :=
  { c with committed := c.committed ++ buf }

/-- Embeds the server `Loading` retry loop over the component-body throw
path: run `runInitially()`; while the attempt suspends, discard its buffer
and re-run with the next attempt; once an attempt completes without
suspending, flush its buffer to the real serializer. -/
def loadingLoop (c : SerCtx) : List Attempt → SerCtx
  | [] => c
  | a :: rest =>
    let (c', buf, susp) := runInitiallyS c a
    if susp then loadingLoop c' rest
    else flushBuffer c' buf

/-! ## JS values and the deep patch proxy
(`createDeepProxy` in `server/signals.ts`, `applyPatches` in the client
hydration module) -/

/-- A property key on a path: a string key or an array index. -/
inductive PKey where
  | str (s : String)
  | idx (n : Nat)
deriving DecidableEq, Repr

/-- JS property keys are strings on plain objects; numeric keys read/write
the field named by their decimal representation. -/
def PKey.asFieldName : PKey → String
  | .str s => s
  | .idx n => toString n

/-- A JS value tree: primitives, plain objects (ordered field lists) and
arrays.  `undef` doubles as `undefined` and as the hole that JS
`delete arr[i]` leaves behind. -/
inductive JVal where
  | undef
  | num (n : Int)
  | str (s : String)
  | boolean (b : Bool)
  | obj (fields : List (String × JVal))
  | arr (elems : List JVal)

/-- First-match lookup in an object's field list. -/
def objLookup : List (String × JVal) → String → Option JVal
  | [], _ => none
  | (k', v) :: rest, k => if k' = k then some v else objLookup rest k

/-- JS property write on an object: replace the existing field in place, or
append a new one. -/
def objSet : List (String × JVal) → String → JVal → List (String × JVal)
  | [], k, v => [(k, v)]
  | (k', v') :: rest, k, v =>
    if k' = k then (k, v) :: rest else (k', v') :: objSet rest k v

/-- JS `delete obj[k]`: drop the field. -/
def objDel : List (String × JVal) → String → List (String × JVal)
  | [], _ => []
  | (k', v') :: rest, k =>
    if k' = k then rest else (k', v') :: objDel rest k

/-- JS `arr[n] = v`: in-range writes replace the element; writing at or past
the end pads the gap with holes (`undef`) and appends. -/
def arrSet (xs : List JVal) (n : Nat) (v : JVal) : List JVal :=
  if n < xs.length then xs.set n v
  else xs ++ List.replicate (n - xs.length) .undef ++ [v]

/-- JS `delete arr[n]`: leaves a hole (`undef`) and keeps the length. -/
def arrDelHole (xs : List JVal) (n : Nat) : List JVal :=
  if n < xs.length then xs.set n .undef else xs

/-- JS `arr.splice(s, d, ...items)` with `s` already clamped server-side
(`List.take`/`List.drop` clamp out-of-range indices exactly as JS does). -/
def arrSplice (xs : List JVal) (s d : Nat) (items : List JVal) : List JVal :=
  xs.take s ++ items ++ xs.drop (s + d)

/-- JS `arr.splice(n, 0, v)`: insert at `n`, clamped to the array's end. -/
def arrInsert (xs : List JVal) (n : Nat) (v : JVal) : List JVal :=
  xs.take n ++ v :: xs.drop n

/-- `current[path[i]]` during the walk of a patch path. -/
def getChild : JVal → PKey → Option JVal
  | .obj fields, k => objLookup fields k.asFieldName
  | .arr xs, .idx n => xs[n]?
  | _, _ => none

/-- Rebuild a container with one existing child replaced (the purely
functional counterpart of having mutated the child in place).  On arrays the
index must be in range; the walk only reaches children `getChild` found. -/
def setChild : JVal → PKey → JVal → Option JVal
  | .obj fields, k, c => some (.obj (objSet fields k.asFieldName c))
  | .arr xs, .idx n, c =>
    if n < xs.length then some (.arr (xs.set n c)) else none
  | _, _, _ => none

/-- Read the container at a key path. -/
def getAt : JVal → List PKey → Option JVal
  | s, [] => some s
  | s, k :: rest =>
    match getChild s k with
    | none => none
    | some c => getAt c rest

/-- Apply a fallible transformation to the container at a key path,
rebuilding the spine. -/
def modAt : JVal → List PKey → (JVal → Option JVal) → Option JVal
  | s, [], f => f s
  | s, k :: rest, f =>
    match getChild s k with
    | none => none
    | some c =>
      match modAt c rest f with
      | none => none
      | some c' => setChild s k c'

/-- A patch operation local to one container: the final path key plus the
operation kind (`[k]` = delete, `[k, v]` = set, `[k, v, 1]` = insert). -/
inductive LPatch where
  | ldel (k : PKey)
  | lset (k : PKey) (v : JVal)
  | lins (k : PKey) (v : JVal)

/-- A recorded patch operation over a full key path, as pushed by the deep
proxy and consumed by the client interpreter. -/
inductive PatchOp where
  | pdel (path : List PKey)
  | pset (path : List PKey) (v : JVal)
  | pins (path : List PKey) (v : JVal)

/-- Prefix a container-local patch with the container's base path, yielding
the shape `patches.push([[...basePath, key], ...])` records. -/
def LPatch.toPatch (base : List PKey) : LPatch → PatchOp
  | .ldel k => .pdel (base ++ [k])
  | .lset k v => .pset (base ++ [k]) v
  | .lins k v => .pins (base ++ [k]) v

/-- The client interpreter's action at the last path key (`applyPatches`):
a 1-element patch does `Array.isArray(current) ? current.splice(key, 1) :
delete current[key]`, a 3-element patch does `current.splice(key, 0, value)`,
a 2-element patch does `current[key] = value`. -/
def lapply (c : JVal) (lp : LPatch) : Option JVal :=
  match lp, c with
  | .ldel (.idx n), .arr xs => some (.arr (arrSplice xs n 1 []))
  | .ldel k, .obj fields => some (.obj (objDel fields k.asFieldName))
  | .ldel _, _ => none
  | .lset k v, .obj fields => some (.obj (objSet fields k.asFieldName v))
  | .lset (.idx n) v, .arr xs => some (.arr (arrSet xs n v))
  | .lset _ _, _ => none
  | .lins (.idx n) v, .arr xs => some (.arr (arrInsert xs n v))
  | .lins _ _, _ => none

/-- Apply a list of container-local patches in order. -/
def lapplyAll (c : JVal) : List LPatch → Option JVal
  | [] => some c
  | lp :: rest =>
    match lapply c lp with
    | none => none
    | some c' => lapplyAll c' rest

/-- The patch-kind part of a full patch (used to walk the path first and
dispatch at the last key, as the client's `for` loop does). -/
inductive PKind where
  | kdel
  | kset (v : JVal)
  | kins (v : JVal)

/-- Rebuild a local patch from the last path key and the kind. -/
def PKind.toLP : PKind → PKey → LPatch
  | .kdel, k => .ldel k
  | .kset v, k => .lset k v
  | .kins v, k => .lins k v

/-- The client's per-patch walk: `current` descends through all path entries
but the last, then the last key dispatches on the patch arity. -/
def applyAtPath (s : JVal) : List PKey → PKind → Option JVal
  | [], _ => none
  | [k], kind => lapply s (kind.toLP k)
  | k :: k₂ :: rest, kind =>
    match getChild s k with
    | none => none
    | some c =>
      match applyAtPath c (k₂ :: rest) kind with
      | none => none
      | some c' => setChild s k c'

/-- Embeds one iteration of the client's `applyPatches` loop. -/
def applyPatch (s : JVal) : PatchOp → Option JVal
  | .pdel path => applyAtPath s path .kdel
  | .pset path v => applyAtPath s path (.kset v)
  | .pins path v => applyAtPath s path (.kins v)

/-- Embeds the client's `applyPatches(target, patches)`: apply each patch in
order. -/
def applyPatches (s : JVal) : List PatchOp → Option JVal
  | [] => some s
  | p :: rest =>
    match applyPatch s p with
    | none => none
    | some s' => applyPatches s' rest

/-! ### Mutations through the deep patch proxy -/

/-- A draft mutation performed through `createDeepProxy`: a property write
(`set` trap), a property delete (`deleteProperty` trap), or one of the
intercepted array methods `shift`/`unshift`/`splice`.  `path` is the base
path of the (possibly nested) child proxy the operation happens on; for
`mset`/`mdel`, `key` is the property key.  Writes to `length` and other
non-index array properties are outside this grammar. -/
inductive Mut where
  | mset (path : List PKey) (key : PKey) (v : JVal)
  | mdel (path : List PKey) (key : PKey)
  | mshift (path : List PKey)
  | munshift (path : List PKey) (items : List JVal)
  | msplice (path : List PKey) (start : Int) (delCount : Option Int)
      (items : List JVal)

/-- The base path of the proxy node a mutation runs on. -/
def Mut.cpath : Mut → List PKey
  | .mset p _ _ => p
  | .mdel p _ => p
  | .mshift p => p
  | .munshift p _ => p
  | .msplice p _ _ _ => p

/-- Embeds the `splice` handler's index arithmetic:
`s = start < 0 ? Math.max(len + start, 0) : Math.min(start, len)` and
`d = deleteCount === undefined ? len - s
   : Math.min(Math.max(deleteCount, 0), len - s)`
(`Int.toNat` is exactly `Math.max(·, 0)` followed by the cast). -/
def spliceBounds (len : Nat) (start : Int) (delCount : Option Int) :
    Nat × Nat :=
  let s : Nat := if start < 0 then ((len : Int) + start).toNat
    else min start.toNat len
  let d : Nat := match delCount with
    | none => len - s
    | some c => min c.toNat (len - s)
  (s, d)

/-- The insert patches the `unshift`/`splice` handlers push: one
`[path ∪ [j + i], items[i], 1]` per item, at ascending indices. -/
def insPatches (j : Nat) : List JVal → List LPatch
  | [] => []
  | v :: vs => .lins (.idx j) v :: insPatches (j + 1) vs

/-- The write a mutation performs on its container, as the proxy traps do it:
`Reflect.set` / `Reflect.deleteProperty` / the native array method.
`none` marks trap situations outside the embedding (e.g. array methods on a
non-array). -/
def containerNew (m : Mut) (c : JVal) : Option JVal :=
  match m, c with
  | .mset _ k v, .obj fields => some (.obj (objSet fields k.asFieldName v))
  | .mset _ (.idx n) v, .arr xs => some (.arr (arrSet xs n v))
  | .mdel _ k, .obj fields => some (.obj (objDel fields k.asFieldName))
  | .mdel _ (.idx n), .arr xs => some (.arr (arrDelHole xs n))
  | .mshift _, .arr [] => some (.arr [])
  | .mshift _, .arr (_ :: rest) => some (.arr rest)
  | .munshift _ items, .arr xs => some (.arr (items ++ xs))
  | .msplice _ start dc items, .arr xs =>
    let sd := spliceBounds xs.length start dc
    some (.arr (arrSplice xs sd.1 sd.2 items))
  | _, _ => none

/-- The patches a mutation pushes, local to its container, as the proxy
traps record them: `set` pushes `[path ∪ [key], value]`; `deleteProperty`
pushes `[path ∪ [key]]`; `shift` pushes a single delete at index 0 (nothing
on an empty array); `unshift` pushes one insert per item at ascending
indices; `splice` pushes `d` deletes all at the computed start followed by
one insert per item at ascending indices. -/
def containerPatches (m : Mut) (c : JVal) : Option (List LPatch) :=
  match m, c with
  | .mset _ k v, .obj _ => some [.lset k v]
  | .mset _ (.idx n) v, .arr _ => some [.lset (.idx n) v]
  | .mdel _ k, .obj _ => some [.ldel k]
  | .mdel _ (.idx n), .arr _ => some [.ldel (.idx n)]
  | .mshift _, .arr [] => some []
  | .mshift _, .arr (_ :: _) => some [.ldel (.idx 0)]
  | .munshift _ items, .arr _ => some (insPatches 0 items)
  | .msplice _ start dc items, .arr xs =>
    let sd := spliceBounds xs.length start dc
    some (List.replicate sd.2 (.ldel (.idx sd.1)) ++ insPatches sd.1 items)
  | _, _ => none

/-- One draft mutation through the deep proxy: navigate to the container,
record the trap's patches (prefixed with the node's base path, as
`[...basePath, key]` does) and perform the trap's write. -/
def serverApplyMut (s : JVal) (m : Mut) : Option (JVal × List PatchOp) :=
  match getAt s m.cpath with
  | none => none
  | some c =>
    match containerPatches m c with
    | none => none
    | some lps =>
      match modAt s m.cpath (containerNew m) with
      | none => none
      | some s' => some (s', lps.map (LPatch.toPatch m.cpath))

/-- A whole mutation sequence on a draft: thread the state, accumulate the
pushed patches in order. -/
def serverRun (s : JVal) : List Mut → Option (JVal × List PatchOp)
  | [] => some (s, [])
  | m :: rest =>
    match serverApplyMut s m with
    | none => none
    | some r₁ =>
      match serverRun r₁.1 rest with
      | none => none
      | some r₂ => some (r₂.1, r₁.2 ++ r₂.2)

/-- Whether a delete targets an object property (rather than an array index,
where the server's `Reflect.deleteProperty` leaves a hole but the client's
1-element-patch interpreter splices the element out). -/
def Mut.delOnObject (m : Mut) (c : JVal) : Bool :=
  match m, c with
  | .mdel _ _, .arr _ => false
  | _, _ => true

/-- Executability of a mutation sequence in the embedding, plus the
round-trip side condition that every delete targets an object property. -/
def okMuts (s : JVal) : List Mut → Bool
  | [] => true
  | m :: rest =>
    match getAt s m.cpath, serverApplyMut s m with
    | some c, some r => m.delOnObject c && okMuts r.1 rest
    | _, _ => false

/-! ### The `splice` trap in full (`createDeepProxy`, for C6) -/

/-- The mutable state of one array proxy node: the backing elements, the
`childProxies` cache keys, and the shared patch log (full paths). -/
structure ProxyArrState where
  elems : List JVal
  cache : List PKey
  patches : List PatchOp

/-- Embeds the `splice` interception of `createDeepProxy` on an array node
with base path `base`: compute the clamped start `s` and delete count `d`,
call the native splice, clear the child-proxy cache, push `d` delete patches
at `s` then one insert patch per item at `s + i`.  Returns the removed
elements (the native splice's return value) and the new node state. -/
def spliceTrap (base : List PKey) (st : ProxyArrState) (start : Int)
    (delCount : Option Int) (items : List JVal) :
    List JVal × ProxyArrState :=
  let sd := spliceBounds st.elems.length start delCount
  ((st.elems.drop sd.1).take sd.2,
    { elems := arrSplice st.elems sd.1 sd.2 items
      cache := []
      patches := st.patches ++
        (List.replicate sd.2 (LPatch.ldel (.idx sd.1)) ++
          insPatches sd.1 items).map (LPatch.toPatch base) })

/-! ## Theorems -/

/-- Claim C3, counterexample: with a single argument, `isPending` does not
return `true` when `fn` throws `NotReadyError` — it rethrows the error
(`arguments.length > 1` fails, so the `throw err` branch runs). -/
theorem c3_counterexample :
    isPendingCall (CallResult.notReady (V := Nat) 0) none ≠ Except.ok true ∧
    isPendingCall (CallResult.notReady (V := Nat) 0) none
      = Except.error (SrvErr.notReady 0) :=
  ⟨by simp [isPendingCall], rfl⟩

/-- Claim C3 (amended): `isPending(fn)` called with a single argument returns
`false` if `fn` returns normally and rethrows any thrown error, including
`NotReadyError`; `isPending(fn, fallback)` called with two arguments returns
`fallback` when `fn` throws `NotReadyError` instead of rethrowing, and any
other thrown error propagates in both forms. -/
theorem c3_isPending_behaviour {V : Type} :
    ∀ (v : V) (src code : Nat) (fb : Bool),
      isPendingCall (CallResult.ok v) none = .ok false
    ∧ isPendingCall (CallResult.ok v) (some fb) = .ok false
    ∧ isPendingCall (CallResult.notReady (V := V) src) none
        = .error (.notReady src)
    ∧ isPendingCall (CallResult.notReady (V := V) src) (some fb) = .ok fb
    ∧ isPendingCall (CallResult.err (V := V) code) none = .error (.other code)
    ∧ isPendingCall (CallResult.err (V := V) code) (some fb)
        = .error (.other code) :=
  fun _ _ _ _ => ⟨rfl, rfl, rfl, rfl, rfl, rfl⟩

/-- Claim C7: when the compute throws `NotReadyError(source)`, `update()`
chains `source.then(update)` (retry flag `true`), stores the error, and a
read of the accessor re-throws exactly the stored error; any other thrown
error is stored and rethrown on read but chains no retry. -/
theorem c7_notReady_retry_and_rethrow {V : Type} :
    ∀ (comp : Comp V) (src code : Nat),
      (updateStep comp (.throwNotReady src)).2 = true
    ∧ (updateStep comp (.throwNotReady src)).1.error
        = some (.notReady src)
    ∧ memoRead (updateStep comp (.throwNotReady src)).1
        = .error (.notReady src)
    ∧ (updateStep comp (.throwOther code)).2 = false
    ∧ memoRead (updateStep comp (.throwOther code)).1
        = .error (.other code)
    ∧ (∀ (v : Option V) (b : Bool) (e : SrvErr),
        memoRead { value := v, error := some e, computed := b } = .error e) :=
  fun _ _ _ => ⟨rfl, rfl, rfl, rfl, rfl, fun _ _ _ => rfl⟩

/-- Claim C10: for a server memo whose compute returns a Promise, a
pre-settlement read throws `NotReadyError` iff `comp.value` was `undefined`
when `processResult` ran; with a non-undefined initial value pre-settlement
reads return that initial value, and after settlement reads return the
resolved value. -/
theorem c10_promise_memo_reads {V : Type} :
    ∀ (initial : Option V),
      ((∃ s, memoRead (processPromise
          { value := initial, error := none, computed := true }).comp
            = .error (.notReady s)) ↔ initial = none)
    ∧ (∀ a, initial = some a →
        memoRead (processPromise
          { value := initial, error := none, computed := true }).comp
            = .ok (some a))
    ∧ (∀ v, memoRead (settlePromise (processPromise
          { value := initial, error := none, computed := true }) v).comp
            = .ok (some v)) := by
  intro initial
  refine ⟨⟨fun h => ?_, fun h => ?_⟩, fun a h => ?_, fun v => ?_⟩
  · cases initial with
    | none => rfl
    | some a =>
      rcases h with ⟨s, hs⟩
      simp [processPromise, memoRead] at hs
  · subst h; exact ⟨0, rfl⟩
  · subst h; rfl
  · cases initial <;> rfl

/-- Claim C10, witness: concrete instantiation at initial value `some 3`
settled with `7`. -/
theorem c10_promise_memo_reads_witness :
    memoRead (processPromise
      { value := (some 3 : Option Nat), error := none, computed := true }).comp
        = .ok (some 3)
  ∧ memoRead (settlePromise (processPromise
      { value := (some 3 : Option Nat), error := none, computed := true })
        7).comp = .ok (some 7) :=
  ⟨(c10_promise_memo_reads (some 3)).2.1 3 rfl,
   (c10_promise_memo_reads (some 3)).2.2 7⟩

/-- Claim C1, code-bug demonstration at the failing input: a `server`-mode
async-iterable memo yielding `1` then `2`.  The tapped wrapper's first
`next()` does resolve the first yield, but once the serializer pulls the
second yield the wrapper's `comp.value = r.value` assignment moves
`comp.value` to `2`, so the memo accessor returns `2` — `comp.value` is not
locked at the first yielded value as the claim (and the repository's own
test) states. -/
theorem c1_comp_value_not_locked :
    (tapNext (iterFirstSettle (processIterServer
      { value := (none : Option Nat), error := none, computed := true }
      [1, 2]))).1 = some 1
  ∧ (tapNext (tapNext (iterFirstSettle (processIterServer
      { value := (none : Option Nat), error := none, computed := true }
      [1, 2]))).2).1 = some 2
  ∧ (tapNext (tapNext (iterFirstSettle (processIterServer
      { value := (none : Option Nat), error := none, computed := true }
      [1, 2]))).2).2.comp.value = some 2
  ∧ memoRead (tapNext (tapNext (iterFirstSettle (processIterServer
      { value := (none : Option Nat), error := none, computed := true }
      [1, 2]))).2).2.comp = .ok (some 2)
  ∧ ((some 2 : Option Nat) ≠ some 1) := by
  refine ⟨rfl, rfl, rfl, rfl, by decide⟩

/-- Claim C9: while the projection's async result is pending, every read of
a non-symbol property through `createPendingProxy` throws `NotReadyError`
carrying the pending promise as source; symbol-keyed reads pass through; and
once the first settlement runs `markReady`, all property reads pass through
to the underlying state. -/
theorem c9_pending_proxy_reads {V : Type} :
    ∀ (st : GetKey → Option V) (src k symk : Nat),
      pendingGet { state := st, pending := true, src := src } (.prop k)
        = .error (.notReady src)
    ∧ pendingGet { state := st, pending := true, src := src } (.symbol symk)
        = .ok (st (.symbol symk))
    ∧ (∀ gk, pendingGet
        (markReady { state := st, pending := true, src := src }) gk
          = .ok (st gk)) := by
  intro st src k symk
  refine ⟨rfl, rfl, fun gk => ?_⟩
  cases gk <;> rfl

/-- Claim C4: for `ssrSource` `initial` or `client`, `createMemo`, the
function form of `createSignal`, and `createProjection` never invoke the
compute function, expose the initial value, and make no serialize call (the
side-channel is unchanged). -/
theorem c4_initial_client_skip_compute {V T : Type} :
    ∀ (src : SsrSource), src = .initial ∨ src = .client →
    ∀ (id : String) (hasCtx noHydrate lazyOpt : Bool) (initial : Option V)
      (outcome : ComputeOutcome V) (fv : V) (tInit : T) (fnRes : ProjFnRes T),
      (createMemoS id hasCtx (some src) lazyOpt initial outcome).invocations = 0
    ∧ (createMemoS id hasCtx (some src) lazyOpt initial outcome).comp.value
        = initial
    ∧ (createMemoS id hasCtx (some src) lazyOpt initial outcome).serialized = []
    ∧ (createSignalFnS (some src) initial fv).invocations = 0
    ∧ (createSignalFnS (some src) initial fv).exposedValue = initial
    ∧ (createSignalFnS (some src) initial fv).serialized = []
    ∧ (createProjectionS id hasCtx noHydrate (some src) tInit fnRes).invocations
        = 0
    ∧ (createProjectionS id hasCtx noHydrate (some src) tInit fnRes).exposed
        = .store tInit
    ∧ (createProjectionS id hasCtx noHydrate (some src) tInit fnRes).serialized
        = [] := by
  rintro src (rfl | rfl) id hasCtx noHydrate lazyOpt initial outcome fv tInit
    fnRes <;>
    exact ⟨rfl, rfl, rfl, rfl, rfl, rfl, rfl, rfl, rfl⟩

/-- Claim C4, witness: concrete instantiation at `ssrSource: "initial"`. -/
theorem c4_initial_client_skip_compute_witness :
    (createMemoS (V := Nat) "t0" true (some .initial) false (some 5)
      (.sync 9)).invocations = 0
  ∧ (createSignalFnS (V := Nat) (some .initial) (some 5) 7).serialized = []
  ∧ (createProjectionS (T := Nat) "t0" true false (some .initial) 3
      (.syncVoid 4)).exposed = .store 3 := by
  have h := c4_initial_client_skip_compute (V := Nat) (T := Nat)
    SsrSource.initial (Or.inl rfl) "t0" true false false (some 5) (.sync 9) 7 3
    (.syncVoid 4)
  exact ⟨h.1, h.2.2.2.2.2.1, h.2.2.2.2.2.2.2.1⟩

/-- Claim C8: the hydrated client error boundary with a serialized error at
the peeked boundary id installs the throw-once wrapper: its first evaluation
throws exactly the serialized error and every later evaluation (after
`reset`) invokes the real `fn`; without a serialized error (or when not
hydrating) the boundary delegates with `fn` unchanged. -/
theorem c8_error_boundary_throw_once {V : Type} :
    ∀ (hydrating hasId : Bool) (loadVal : Option Nat) (e : Nat)
      (fnResults : Nat → Except SrvErr V),
      (hydrating = true → hasId = true → loadVal = some e →
          hydratedCreateEB hydrating hasId loadVal = .throwOnce e
        ∧ (ebBodyEval (V := V) (.throwOnce e) fnResults 0).1
            = .error (.other e)
        ∧ ∀ n, 0 < n →
            (ebBodyEval (V := V) (.throwOnce e) fnResults n).1 = fnResults n)
    ∧ (hasId = false ∨ loadVal = none →
        hydratedCreateEB hydrating hasId loadVal = .plain)
    ∧ (hydrating = false → hydratedCreateEB hydrating hasId loadVal = .plain)
    ∧ (∀ n, (ebBodyEval (V := V) .plain fnResults n).1 = fnResults n) := by
  intro hydrating hasId loadVal e fnResults
  have hsnd : ∀ n, (ebBodyEval (V := V) (.throwOnce e) fnResults n).2 = false := by
    intro n
    induction n with
    | zero => rfl
    | succ k ih => simp [ebBodyEval, ih, ebBodyStep]
  refine ⟨fun hh hi hl => ?_, fun h => ?_, fun h => ?_, fun n => ?_⟩
  · subst hh; subst hi; subst hl
    refine ⟨rfl, rfl, fun n hn => ?_⟩
    cases n with
    | zero => exact absurd hn (by decide)
    | succ k => simp [ebBodyEval, hsnd k, ebBodyStep]
  · rcases h with rfl | rfl
    · cases hydrating <;> rfl
    · cases hydrating <;> cases hasId <;> rfl
  · subst h; rfl
  · cases n with
    | zero => rfl
    | succ k => rfl

/-- Claim C8, witness: hydrating boundary with serialized error `4`; the
second evaluation returns the real `fn`'s result. -/
theorem c8_error_boundary_throw_once_witness :
    hydratedCreateEB true true (some 4) = .throwOnce 4
  ∧ (ebBodyEval (V := Nat) (.throwOnce 4) (fun _ => .ok 9) 0).1
      = .error (.other 4)
  ∧ (ebBodyEval (V := Nat) (.throwOnce 4) (fun _ => .ok 9) 1).1 = .ok 9 := by
  have h := (c8_error_boundary_throw_once (V := Nat) true true (some 4) 4
    (fun _ => .ok 9)).1 rfl rfl rfl
  exact ⟨h.1, h.2.1, h.2.2 1 (by decide)⟩

/-- While `ctx.serialize` is rebound to the buffering closure, dispatching a
list of calls leaves the context untouched and appends every call to the
buffer. -/
theorem serializeFold_buffered (calls : List SerCall) :
    ∀ (c : SerCtx) (buf : List SerCall), c.binding = .buffered →
      calls.foldl (fun (p : SerCtx × List SerCall) call =>
        doSerialize p.1 p.2 call) (c, buf) = (c, buf ++ calls) := by
  induction calls with
  | nil => intro c buf _; simp
  | cons call rest ih =>
    intro c buf hb
    have hstep : doSerialize c buf call = (c, buf ++ [call]) := by
      simp [doSerialize, hb]
    simp only [List.foldl_cons, hstep, ih c (buf ++ [call]) hb,
      List.append_assoc, List.cons_append, List.nil_append]

/-- `runInitially()` restores the real `ctx.serialize` binding, commits
nothing to the real serializer, and hands back exactly the attempt's calls
as the buffer. -/
theorem runInitiallyS_spec (c : SerCtx) (a : Attempt) :
    runInitiallyS c a
      = ({ committed := c.committed, binding := .real }, a.calls, a.suspends) := by
  simp only [runInitiallyS]
  rw [serializeFold_buffered a.calls
    { committed := c.committed, binding := .buffered } [] rfl]
  simp

/-- Claim C2: across the server Loading boundary's component-body re-attempt
loop, only the serialize calls of the final (non-suspending) attempt reach
the real `ctx.serialize`; calls buffered during earlier discarded attempts
are never committed; the boundary ends with the real binding, and
`runInitially` restores the previous `ctx.serialize` binding after every
attempt. -/
theorem c2_buffered_serialization :
    ∀ (pre : List Attempt) (c : SerCtx) (last : Attempt),
      (∀ a ∈ pre, a.suspends = true) → last.suspends = false →
      (loadingLoop c (pre ++ [last])).committed = c.committed ++ last.calls
    ∧ (loadingLoop c (pre ++ [last])).binding = .real
    ∧ (∀ (c' : SerCtx) (a : Attempt), (runInitiallyS c' a).1.binding = .real) := by
  intro pre
  induction pre with
  | nil =>
    intro c last _ hlast
    refine ⟨?_, ?_, fun c' a => by rw [runInitiallyS_spec]⟩ <;>
      simp [loadingLoop, runInitiallyS_spec, hlast, flushBuffer]
  | cons a rest ih =>
    intro c last hpre hlast
    have ha : a.suspends = true := hpre a (List.mem_cons_self a rest)
    have hrest : ∀ x ∈ rest, x.suspends = true :=
      fun x hx => hpre x (List.mem_cons_of_mem a hx)
    have hc' := ih { committed := c.committed, binding := .real } last hrest hlast
    have hl : loadingLoop c ((a :: rest) ++ [last])
        = loadingLoop { committed := c.committed, binding := .real }
            (rest ++ [last]) := by
      simp [loadingLoop, runInitiallyS_spec, ha]
    exact ⟨by rw [hl]; exact hc'.1, by rw [hl]; exact hc'.2.1,
      fun c' a' => by rw [runInitiallyS_spec]⟩

/-- Claim C2, witness: one suspending attempt followed by a successful one;
only the second attempt's call is committed. -/
theorem c2_buffered_serialization_witness :
    (loadingLoop { committed := [], binding := .real }
      ([⟨[⟨"a", 1, false⟩], true⟩] ++ [⟨[⟨"b", 2, false⟩], false⟩])).committed
      = [⟨"b", 2, false⟩] := by
  have h := c2_buffered_serialization [⟨[⟨"a", 1, false⟩], true⟩]
    { committed := [], binding := .real } ⟨[⟨"b", 2, false⟩], false⟩
    (by intro x hx; simp at hx; rw [hx]) rfl
  simpa using h.1

/-! ### Helper lemmas for the patch round trip -/

theorem list_set_self {α : Type} :
    ∀ (xs : List α) (n : Nat) (c : α), xs[n]? = some c → xs.set n c = xs := by
  intro xs
  induction xs with
  | nil => intro n c h; simp at h
  | cons x rest ih =>
    intro n c h
    cases n with
    | zero => simp at h; simp [List.set, h]
    | succ k =>
      simp only [List.getElem?_cons_succ] at h
      simp [List.set, ih k c h]

theorem objLookup_objSet_self :
    ∀ (fs : List (String × JVal)) (k : String) (v : JVal),
      objLookup (objSet fs k v) k = some v := by
  intro fs
  induction fs with
  | nil => intro k v; simp [objSet, objLookup]
  | cons f rest ih =>
    intro k v
    by_cases h : f.1 = k
    · simp [objSet, h, objLookup]
    · simp [objSet, h, objLookup, ih]

theorem objSet_objSet_self :
    ∀ (fs : List (String × JVal)) (k : String) (a b : JVal),
      objSet (objSet fs k a) k b = objSet fs k b := by
  intro fs
  induction fs with
  | nil => intro k a b; simp [objSet]
  | cons f rest ih =>
    intro k a b
    by_cases h : f.1 = k
    · simp [objSet, h]
    · simp [objSet, h, ih]

theorem objSet_lookup_self :
    ∀ (fs : List (String × JVal)) (k : String) (v : JVal),
      objLookup fs k = some v → objSet fs k v = fs := by
  intro fs
  induction fs with
  | nil => intro k v h; simp [objLookup] at h
  | cons f rest ih =>
    intro k v h
    by_cases hk : f.1 = k
    · rcases f with ⟨k', v'⟩
      simp only [objLookup] at h
      simp only at hk
      subst hk
      rw [if_pos rfl] at h
      obtain rfl := Option.some.inj h
      simp [objSet]
    · rcases f with ⟨k', v'⟩
      simp only [objLookup] at h
      simp only at hk
      rw [if_neg hk] at h
      simp [objSet, hk, ih k v h]

theorem getChild_setChild {s s₁ c' : JVal} {k : PKey} :
    setChild s k c' = some s₁ → getChild s₁ k = some c' := by
  intro h
  cases s with
  | obj fields =>
    simp only [setChild] at h
    obtain rfl := Option.some.inj h
    simp [getChild, objLookup_objSet_self]
  | arr xs =>
    cases k with
    | str _ => simp [setChild] at h
    | idx n =>
      simp only [setChild] at h
      split at h
      · obtain rfl := Option.some.inj h
        next hlt => simp [getChild, List.getElem?_set_self hlt]
      · exact Option.noConfusion h
  | undef => simp [setChild] at h
  | num _ => simp [setChild] at h
  | str _ => simp [setChild] at h
  | boolean _ => simp [setChild] at h

theorem setChild_isSome_of_getChild {s c : JVal} {k : PKey} (x : JVal) :
    getChild s k = some c → (setChild s k x).isSome := by
  intro h
  cases s with
  | obj fields => simp [setChild]
  | arr xs =>
    cases k with
    | str _ => simp [getChild] at h
    | idx n =>
      simp only [getChild] at h
      have hlt : n < xs.length := by
        by_contra hge
        rw [List.getElem?_eq_none (Nat.le_of_not_lt hge)] at h
        exact Option.noConfusion h
      simp [setChild, hlt]
  | undef => simp [getChild] at h
  | num _ => simp [getChild] at h
  | str _ => simp [getChild] at h
  | boolean _ => simp [getChild] at h

theorem setChild_setChild {s s₁ : JVal} {k : PKey} {c₁ : JVal} :
    setChild s k c₁ = some s₁ → ∀ c₂, setChild s₁ k c₂ = setChild s k c₂ := by
  intro h c₂
  cases s with
  | obj fields =>
    simp only [setChild] at h
    obtain rfl := Option.some.inj h
    simp [setChild, objSet_objSet_self]
  | arr xs =>
    cases k with
    | str _ => simp [setChild] at h
    | idx n =>
      simp only [setChild] at h
      split at h
      · obtain rfl := Option.some.inj h
        next hlt =>
          simp [setChild, hlt, List.set_set]
      · exact Option.noConfusion h
  | undef => simp [setChild] at h
  | num _ => simp [setChild] at h
  | str _ => simp [setChild] at h
  | boolean _ => simp [setChild] at h

theorem setChild_getChild_self {s c : JVal} {k : PKey} :
    getChild s k = some c → setChild s k c = some s := by
  intro h
  cases s with
  | obj fields =>
    simp only [getChild] at h
    simp [setChild, objSet_lookup_self fields k.asFieldName c h]
  | arr xs =>
    cases k with
    | str _ => simp [getChild] at h
    | idx n =>
      simp only [getChild] at h
      have hlt : n < xs.length := by
        by_contra hge
        rw [List.getElem?_eq_none (Nat.le_of_not_lt hge)] at h
        exact Option.noConfusion h
      simp [setChild, hlt, list_set_self xs n c h]
  | undef => simp [getChild] at h
  | num _ => simp [getChild] at h
  | str _ => simp [getChild] at h
  | boolean _ => simp [getChild] at h

theorem modAt_id :
    ∀ (path : List PKey) (s : JVal), (getAt s path).isSome →
      modAt s path some = some s := by
  intro path
  induction path with
  | nil => intro s _; rfl
  | cons k rest ih =>
    intro s hnav
    simp only [getAt] at hnav
    cases hc : getChild s k with
    | none => rw [hc] at hnav; simp at hnav
    | some c =>
      rw [hc] at hnav
      simp only [modAt, hc, ih c hnav, setChild_getChild_self hc]

theorem getAt_modAt :
    ∀ (path : List PKey) (f : JVal → Option JVal) (s s' : JVal),
      modAt s path f = some s' → (getAt s' path).isSome := by
  intro path
  induction path with
  | nil => intro f s s' _; simp [getAt]
  | cons k rest ih =>
    intro f s s' h
    simp only [modAt] at h
    cases hc : getChild s k with
    | none => rw [hc] at h; simp at h
    | some c =>
      rw [hc] at h
      simp only at h
      cases hm : modAt c rest f with
      | none => rw [hm] at h; simp at h
      | some c' =>
        rw [hm] at h
        simp only at h
        simp only [getAt, getChild_setChild h]
        exact ih f c c' hm

theorem modAt_bind :
    ∀ (path : List PKey) (f g : JVal → Option JVal) (s : JVal),
      (modAt s path f).bind (fun s₁ => modAt s₁ path g)
        = modAt s path (fun c => (f c).bind g) := by
  intro path
  induction path with
  | nil => intro f g s; rfl
  | cons k rest ih =>
    intro f g s
    cases hc : getChild s k with
    | none => simp [modAt, hc]
    | some c =>
      cases hm : modAt c rest f with
      | none =>
        have hcomp : modAt c rest (fun x => (f x).bind g) = none := by
          have hi := ih f g c
          rw [hm] at hi
          simpa using hi.symm
        simp [modAt, hc, hm, hcomp]
      | some c' =>
        have hcomp : modAt c rest (fun x => (f x).bind g) = modAt c' rest g := by
          have hi := ih f g c
          rw [hm] at hi
          simpa using hi.symm
        have hset := setChild_isSome_of_getChild (s := s) (k := k) c' hc
        cases hs : setChild s k c' with
        | none => rw [hs] at hset; simp at hset
        | some s₁ =>
          have hgc1 : getChild s₁ k = some c' := getChild_setChild hs
          have hss := setChild_setChild hs
          simp only [modAt, hc, hm, hs, hcomp, Option.some_bind, hgc1]
          cases modAt c' rest g with
          | none => rfl
          | some c'' => simp only [hss]

theorem modAt_congr :
    ∀ (path : List PKey) (f g : JVal → Option JVal) (s c : JVal),
      getAt s path = some c → f c = g c →
      modAt s path f = modAt s path g := by
  intro path
  induction path with
  | nil =>
    intro f g s c hnav hfg
    simp only [getAt] at hnav
    obtain rfl := Option.some.inj hnav
    exact hfg
  | cons k rest ih =>
    intro f g s c hnav hfg
    simp only [getAt] at hnav
    cases hc : getChild s k with
    | none => rw [hc] at hnav; simp at hnav
    | some c₀ =>
      rw [hc] at hnav
      simp only [Option.bind_some] at hnav
      simp only [modAt, hc, Option.bind_some, ih f g c₀ c hnav hfg]

theorem applyAtPath_append :
    ∀ (path : List PKey) (k : PKey) (kind : PKind) (s : JVal),
      applyAtPath s (path ++ [k]) kind
        = modAt s path (fun c => lapply c (kind.toLP k)) := by
  intro path
  induction path with
  | nil => intro k kind s; rfl
  | cons k₁ rest ih =>
    intro k kind s
    cases rest with
    | nil =>
      show applyAtPath s [k₁, k] kind
        = modAt s [k₁] (fun c => lapply c (kind.toLP k))
      cases hc : getChild s k₁ with
      | none => simp [applyAtPath, modAt, hc]
      | some c => simp [applyAtPath, modAt, hc]
    | cons k₂ rest₂ =>
      have hL : applyAtPath s ((k₁ :: k₂ :: rest₂) ++ [k]) kind
          = match getChild s k₁ with
            | none => none
            | some c =>
              match applyAtPath c ((k₂ :: rest₂) ++ [k]) kind with
              | none => none
              | some c' => setChild s k₁ c' := rfl
      have hR : modAt s (k₁ :: k₂ :: rest₂) (fun c => lapply c (kind.toLP k))
          = match getChild s k₁ with
            | none => none
            | some c =>
              match modAt c (k₂ :: rest₂) (fun c => lapply c (kind.toLP k)) with
              | none => none
              | some c' => setChild s k₁ c' := rfl
      rw [hL, hR]
      cases getChild s k₁ with
      | none => rfl
      | some c => simp only [ih k kind c]

theorem lapplyAll_append :
    ∀ (l₁ l₂ : List LPatch) (c : JVal),
      lapplyAll c (l₁ ++ l₂) = (lapplyAll c l₁).bind (lapplyAll · l₂) := by
  intro l₁
  induction l₁ with
  | nil => intro l₂ c; rfl
  | cons lp rest ih =>
    intro l₂ c
    simp only [List.cons_append, lapplyAll]
    cases lapply c lp with
    | none => rfl
    | some c' => simp only [Option.bind_some]; exact ih l₂ c'

theorem applyPatches_append :
    ∀ (ps₁ ps₂ : List PatchOp) (s : JVal),
      applyPatches s (ps₁ ++ ps₂)
        = (applyPatches s ps₁).bind (applyPatches · ps₂) := by
  intro ps₁
  induction ps₁ with
  | nil => intro ps₂ s; rfl
  | cons p rest ih =>
    intro ps₂ s
    simp only [List.cons_append, applyPatches]
    cases applyPatch s p with
    | none => rfl
    | some s' => simp only [Option.bind_some]; exact ih ps₂ s'

theorem applyPatches_localBatch :
    ∀ (lps : List LPatch) (path : List PKey) (s : JVal),
      (getAt s path).isSome →
      applyPatches s (lps.map (LPatch.toPatch path))
        = modAt s path (fun c => lapplyAll c lps) := by
  intro lps
  induction lps with
  | nil =>
    intro path s hnav
    simp only [List.map_nil, applyPatches]
    exact (modAt_id path s hnav).symm
  | cons lp rest ih =>
    intro path s hnav
    have hfirst : applyPatch s (LPatch.toPatch path lp)
        = modAt s path (fun c => lapply c lp) := by
      cases lp with
      | ldel k => exact applyAtPath_append path k .kdel s
      | lset k v => exact applyAtPath_append path k (.kset v) s
      | lins k v => exact applyAtPath_append path k (.kins v) s
    have hfun : (fun c => lapplyAll c (lp :: rest))
        = fun c => (lapply c lp).bind (lapplyAll · rest) := by
      funext c
      cases h : lapply c lp with
      | none => simp [lapplyAll, h]
      | some c' => simp [lapplyAll, h]
    rw [hfun, ← modAt_bind path (fun c => lapply c lp) (lapplyAll · rest) s]
    simp only [List.map_cons, applyPatches, hfirst]
    cases hm : modAt s path (fun c => lapply c lp) with
    | none => rfl
    | some s₁ =>
      simp only [Option.some_bind]
      exact ih path s₁ (getAt_modAt path _ s s₁ hm)

theorem lapplyAll_insPatches :
    ∀ (items : List JVal) (j : Nat) (xs : List JVal), j ≤ xs.length →
      lapplyAll (.arr xs) (insPatches j items)
        = some (.arr (xs.take j ++ items ++ xs.drop j)) := by
  intro items
  induction items with
  | nil =>
    intro j xs _
    simp [insPatches, lapplyAll, List.take_append_drop]
  | cons v vs ih =>
    intro j xs hj
    have hlen : (xs.take j).length = j := by
      simp [List.length_take]; omega
    have hins : lapply (.arr xs) (.lins (.idx j) v)
        = some (.arr (xs.take j ++ v :: xs.drop j)) := by
      simp [lapply, arrInsert]
    have hlen' : j + 1 ≤ (xs.take j ++ v :: xs.drop j).length := by
      simp [List.length_append, hlen]
    simp only [insPatches, lapplyAll, hins, ih (j + 1) _ hlen']
    have htake : (xs.take j ++ v :: xs.drop j).take (j + 1)
        = xs.take j ++ [v] := by
      rw [List.take_append_eq_append_take,
        List.take_of_length_le (by omega : (xs.take j).length ≤ j + 1), hlen]
      simp
    have hdrop : (xs.take j ++ v :: xs.drop j).drop (j + 1) = xs.drop j := by
      rw [List.drop_append_eq_append_drop,
        List.drop_eq_nil_of_le (by omega : (xs.take j).length ≤ j + 1), hlen]
      simp
    rw [htake, hdrop]
    simp

theorem lapplyAll_delPatches :
    ∀ (d j : Nat) (xs : List JVal), j + d ≤ xs.length →
      lapplyAll (.arr xs) (List.replicate d (.ldel (.idx j)))
        = some (.arr (xs.take j ++ xs.drop (j + d))) := by
  intro d
  induction d with
  | zero =>
    intro j xs _
    simp [lapplyAll, List.take_append_drop]
  | succ d ih =>
    intro j xs hj
    have hlen : (xs.take j).length = j := by
      simp [List.length_take]; omega
    have hdel : lapply (.arr xs) (.ldel (.idx j))
        = some (.arr (xs.take j ++ xs.drop (j + 1))) := by
      simp [lapply, arrSplice]
    have hlen' : j + d ≤ (xs.take j ++ xs.drop (j + 1)).length := by
      simp [List.length_append, hlen, List.length_drop]; omega
    simp only [List.replicate_succ, lapplyAll, hdel, ih j _ hlen']
    have htake : (xs.take j ++ xs.drop (j + 1)).take j = xs.take j := by
      rw [List.take_append_eq_append_take,
        List.take_of_length_le (le_of_eq hlen), hlen]
      simp
    have hdrop : (xs.take j ++ xs.drop (j + 1)).drop (j + d)
        = xs.drop (j + (d + 1)) := by
      rw [List.drop_append_eq_append_drop,
        List.drop_eq_nil_of_le (by omega : (xs.take j).length ≤ j + d), hlen,
        List.drop_drop]
      simp only [List.nil_append]
      congr 1
      omega
    rw [htake, hdrop]

theorem spliceBounds_le (len : Nat) (start : Int) (dc : Option Int) :
    (spliceBounds len start dc).1 ≤ len
  ∧ (spliceBounds len start dc).1 + (spliceBounds len start dc).2 ≤ len := by
  unfold spliceBounds
  rcases dc with _ | c <;> dsimp only <;> split <;> omega

theorem containerOps_align :
    ∀ (m : Mut) (c : JVal) (lps : List LPatch),
      m.delOnObject c = true → containerPatches m c = some lps →
      lapplyAll c lps = containerNew m c := by
  intro m c lps hdel hp
  cases m with
  | mset p k v =>
    cases c with
    | obj fields =>
      simp only [containerPatches] at hp
      obtain rfl := Option.some.inj hp
      simp [lapplyAll, lapply, containerNew]
    | arr xs =>
      cases k with
      | str _ => simp [containerPatches] at hp
      | idx n =>
        simp only [containerPatches] at hp
        obtain rfl := Option.some.inj hp
        simp [lapplyAll, lapply, containerNew]
    | undef => simp [containerPatches] at hp
    | num _ => simp [containerPatches] at hp
    | str _ => simp [containerPatches] at hp
    | boolean _ => simp [containerPatches] at hp
  | mdel p k =>
    cases c with
    | obj fields =>
      simp only [containerPatches] at hp
      obtain rfl := Option.some.inj hp
      cases k with
      | str s => simp [lapplyAll, lapply, containerNew]
      | idx n => simp [lapplyAll, lapply, containerNew]
    | arr xs => simp [Mut.delOnObject] at hdel
    | undef => simp [containerPatches] at hp
    | num _ => simp [containerPatches] at hp
    | str _ => simp [containerPatches] at hp
    | boolean _ => simp [containerPatches] at hp
  | mshift p =>
    cases c with
    | arr xs =>
      cases xs with
      | nil =>
        simp only [containerPatches] at hp
        obtain rfl := Option.some.inj hp
        simp [lapplyAll, containerNew]
      | cons x rest =>
        simp only [containerPatches] at hp
        obtain rfl := Option.some.inj hp
        simp [lapplyAll, lapply, containerNew, arrSplice]
    | obj _ => simp [containerPatches] at hp
    | undef => simp [containerPatches] at hp
    | num _ => simp [containerPatches] at hp
    | str _ => simp [containerPatches] at hp
    | boolean _ => simp [containerPatches] at hp
  | munshift p items =>
    cases c with
    | arr xs =>
      simp only [containerPatches] at hp
      obtain rfl := Option.some.inj hp
      rw [lapplyAll_insPatches items 0 xs (Nat.zero_le _)]
      simp [containerNew]
    | obj _ => simp [containerPatches] at hp
    | undef => simp [containerPatches] at hp
    | num _ => simp [containerPatches] at hp
    | str _ => simp [containerPatches] at hp
    | boolean _ => simp [containerPatches] at hp
  | msplice p start dc items =>
    cases c with
    | arr xs =>
      simp only [containerPatches] at hp
      obtain rfl := Option.some.inj hp
      obtain ⟨hs, hsd⟩ := spliceBounds_le xs.length start dc
      set sN := (spliceBounds xs.length start dc).1 with hsN
      set dN := (spliceBounds xs.length start dc).2 with hdN
      rw [lapplyAll_append]
      rw [lapplyAll_delPatches dN sN xs hsd]
      have hlen : (xs.take sN).length = sN := by
        simp [List.length_take]; omega
      have hlen2 : sN ≤ (xs.take sN ++ xs.drop (sN + dN)).length := by
        simp only [List.length_append, hlen, List.length_drop]
        omega
      simp only [Option.some_bind]
      rw [lapplyAll_insPatches items sN _ hlen2]
      have htake : (xs.take sN ++ xs.drop (sN + dN)).take sN = xs.take sN := by
        rw [List.take_append_eq_append_take,
          List.take_of_length_le (le_of_eq hlen), hlen]
        simp
      have hdrop : (xs.take sN ++ xs.drop (sN + dN)).drop sN
          = xs.drop (sN + dN) := by
        rw [List.drop_append_eq_append_drop,
          List.drop_eq_nil_of_le (le_of_eq hlen), hlen]
        simp
      rw [htake, hdrop]
      simp [containerNew, arrSplice, ← hsN, ← hdN]
    | obj _ => simp [containerPatches] at hp
    | undef => simp [containerPatches] at hp
    | num _ => simp [containerPatches] at hp
    | str _ => simp [containerPatches] at hp
    | boolean _ => simp [containerPatches] at hp

theorem serverStep_replay (s : JVal) (m : Mut) (s' : JVal) (ps : List PatchOp)
    (c : JVal) (hnav : getAt s m.cpath = some c)
    (hdel : m.delOnObject c = true)
    (hstep : serverApplyMut s m = some (s', ps)) :
    applyPatches s ps = some s' := by
  simp only [serverApplyMut, hnav] at hstep
  cases hp : containerPatches m c with
  | none => rw [hp] at hstep; simp at hstep
  | some lps =>
    rw [hp] at hstep
    simp only at hstep
    cases hm : modAt s m.cpath (containerNew m) with
    | none => rw [hm] at hstep; simp at hstep
    | some s₁ =>
      rw [hm] at hstep
      simp only [Option.some.injEq, Prod.mk.injEq] at hstep
      obtain ⟨rfl, rfl⟩ := hstep
      rw [applyPatches_localBatch lps m.cpath s (by rw [hnav]; rfl)]
      rw [modAt_congr m.cpath _ (containerNew m) s c hnav
        (containerOps_align m c lps hdel hp)]
      exact hm

/-- Claim C5, counterexample: a `delete` of an array index through the deep
proxy.  The server's `Reflect.deleteProperty` leaves a hole (the array keeps
its length), but the client interpreter treats the 1-element patch on an
array with `splice(key, 1)`, removing the element and shifting the rest, so
replaying the emitted patches on a copy of the pre-mutation state does not
reproduce the post-mutation draft state. -/
theorem c5_counterexample :
    serverRun (.obj [("xs", .arr [.num 1, .num 2])])
      [.mdel [.str "xs"] (.idx 0)]
      = some (.obj [("xs", .arr [.undef, .num 2])],
          [.pdel [.str "xs", .idx 0]])
  ∧ applyPatches (.obj [("xs", .arr [.num 1, .num 2])])
      [.pdel [.str "xs", .idx 0]]
      = some (.obj [("xs", .arr [.num 2])])
  ∧ (JVal.obj [("xs", JVal.arr [.num 2])]
      ≠ JVal.obj [("xs", JVal.arr [.undef, .num 2])]) :=
  ⟨rfl, rfl, by simp⟩

/-- Claim C5 (amended): for every sequence of mutations (property sets,
object-property deletes, shift, unshift, splice) applied through the deep
patch proxy to a draft — deletes of array indices excluded, since there the
server leaves a hole while the client splices — applying the emitted patch
sequence in order to a structurally-equal copy of the pre-mutation state via
the client patch interpreter (delete for 1-element ops, array insert for
3-element ops, set for 2-element ops) yields exactly the post-mutation draft
state. -/
theorem c5_patch_replay :
    ∀ (muts : List Mut) (s₀ sf : JVal) (ps : List PatchOp),
      okMuts s₀ muts = true →
      serverRun s₀ muts = some (sf, ps) →
      applyPatches s₀ ps = some sf := by
  intro muts
  induction muts with
  | nil =>
    intro s₀ sf ps _ hrun
    simp only [serverRun, Option.some.injEq, Prod.mk.injEq] at hrun
    obtain ⟨rfl, rfl⟩ := hrun
    rfl
  | cons m rest ih =>
    intro s₀ sf ps hok hrun
    simp only [okMuts] at hok
    cases hc : getAt s₀ m.cpath with
    | none => rw [hc] at hok; simp at hok
    | some c =>
      rw [hc] at hok
      cases hr : serverApplyMut s₀ m with
      | none => rw [hr] at hok; simp at hok
      | some r₁ =>
        rw [hr] at hok
        simp only [Bool.and_eq_true] at hok
        simp only [serverRun, hr] at hrun
        cases hs2 : serverRun r₁.1 rest with
        | none => rw [hs2] at hrun; simp at hrun
        | some r₂ =>
          rw [hs2] at hrun
          simp only [Option.some.injEq, Prod.mk.injEq] at hrun
          obtain ⟨rfl, rfl⟩ := hrun
          rw [applyPatches_append]
          rw [serverStep_replay s₀ m r₁.1 r₁.2 c hc hok.1
            (by rw [hr])]
          simp only [Option.some_bind]
          exact ih r₁.1 r₂.1 r₂.2 hok.2 hs2

/-- Claim C5 (amended), witness: a splice followed by a nested property set;
replaying the recorded patches on the initial state reproduces the final
draft state. -/
theorem c5_patch_replay_witness :
    applyPatches (.obj [("xs", .arr [.num 1, .num 2])])
      [.pdel [.str "xs", .idx 0], .pins [.str "xs", .idx 0] (.num 7),
        .pset [.str "k"] (.num 3)]
      = some (.obj [("xs", .arr [.num 7, .num 2]), ("k", .num 3)]) :=
  c5_patch_replay
    [.msplice [.str "xs"] 0 (some 1) [.num 7], .mset [] (.str "k") (.num 3)]
    (.obj [("xs", .arr [.num 1, .num 2])])
    (.obj [("xs", .arr [.num 7, .num 2]), ("k", .num 3)])
    [.pdel [.str "xs", .idx 0], .pins [.str "xs", .idx 0] (.num 7),
      .pset [.str "k"] (.num 3)]
    rfl rfl

theorem insPatches_toPatch :
    ∀ (items : List JVal) (j : Nat) (base : List PKey),
      (insPatches j items).map (LPatch.toPatch base)
        = List.zipWith (fun i v => PatchOp.pins (base ++ [.idx (j + i)]) v)
            (List.range items.length) items := by
  intro items
  induction items with
  | nil => intro j base; rfl
  | cons v vs ih =>
    intro j base
    simp only [insPatches, List.map_cons, List.length_cons,
      List.range_succ_eq_map, List.zipWith_cons_cons]
    congr 1
    rw [List.zipWith_map_left, ih (j + 1) base]
    have harith : (fun (a : Nat) (b : JVal) =>
        PatchOp.pins (base ++ [.idx (j + (a + 1))]) b)
          = fun a b => PatchOp.pins (base ++ [.idx ((j + 1) + a)]) b := by
      funext a b
      have h : j + (a + 1) = (j + 1) + a := by omega
      rw [h]
    rw [← harith]

/-- Claim C6, counterexample: `splice(0, 5)` on a 1-element array pushes a
single delete patch, not five — the delete count is clamped to
`length - start` (`Math.min(Math.max(deleteCount, 0), len - s)`), so the
proxy does not push "exactly del" delete patches for an out-of-range `del`. -/
theorem c6_counterexample :
    ((spliceTrap [] { elems := [.num 1], cache := [.idx 0], patches := [] }
      0 (some 5) []).2.patches.length = 1)
  ∧ ((1 : Nat) ≠ 5)
  ∧ ((spliceTrap [] { elems := [.num 1], cache := [.idx 0], patches := [] }
      0 (some 5) []).2.cache = []) :=
  ⟨rfl, by decide, rfl⟩

/-- Claim C6 (amended): for every `splice(start, del, ...ins)` on an array
behind the deep patch proxy, the proxy pushes exactly `d` delete patches —
where `d` is `del` clamped into `[0, length − s]` (and `length − s` when
`del` is omitted) — all targeting the same absolute start index `s` (`start`
clamped into `[0, length]`, negative `start` counted from the end), followed
by exactly `ins.length` insert patches at ascending indices
`s .. s + ins.length − 1`, and clears the cached child proxies. -/
theorem c6_splice_patches :
    ∀ (base : List PKey) (st : ProxyArrState) (start : Int)
      (dc : Option Int) (items : List JVal),
      (spliceTrap base st start dc items).2.cache = []
    ∧ (((spliceBounds st.elems.length start dc).1 : Int)
        = max 0 (min (if start < 0 then (st.elems.length : Int) + start
            else start) (st.elems.length : Int)))
    ∧ (((spliceBounds st.elems.length start dc).2 : Int)
        = max 0 (min (dc.getD ((st.elems.length : Int)
              - (spliceBounds st.elems.length start dc).1))
            ((st.elems.length : Int)
              - (spliceBounds st.elems.length start dc).1)))
    ∧ (spliceTrap base st start dc items).2.patches
        = st.patches
          ++ List.replicate (spliceBounds st.elems.length start dc).2
              (PatchOp.pdel (base
                ++ [.idx (spliceBounds st.elems.length start dc).1]))
          ++ List.zipWith (fun i v => PatchOp.pins
              (base ++ [.idx ((spliceBounds st.elems.length start dc).1 + i)]) v)
              (List.range items.length) items := by
  intro base st start dc items
  refine ⟨rfl, ?_, ?_, ?_⟩
  · by_cases hlt : start < 0 <;> simp [spliceBounds, hlt] <;> omega
  · rcases dc with _ | c <;>
      by_cases hlt : start < 0 <;> simp [spliceBounds, hlt] <;> omega
  · show st.patches
        ++ (List.replicate (spliceBounds st.elems.length start dc).2
              (LPatch.ldel (.idx (spliceBounds st.elems.length start dc).1))
            ++ insPatches (spliceBounds st.elems.length start dc).1
                items).map (LPatch.toPatch base)
      = _
    rw [List.map_append, List.map_replicate,
      insPatches_toPatch items (spliceBounds st.elems.length start dc).1 base,
      List.append_assoc]
    rfl

end Spec2Proof
